import Mathlib

/-!
Verification of the cryptanalysis core of src/Decode/auto_sub_solver.py.

Strings are modelled as List Char.  Python floats are modelled as exact
rationals (ℚ): the literals 0.90, 0.995, 1.1, 3.5, 0.75, 0.80 become
9/10, 199/200, 11/10, 7/2, 3/4, 8/10.  The external collaborators
(wordfreq zipf_frequency, the n-gram tables, the Llama judge, the RNG and
the interactive channel) are parameters of the definitions: each modelled
function takes them as explicit arguments, mirroring exactly how the
Python code consumes them.
-/

set_option maxRecDepth 200000

namespace AutoSub

/-- The alphabet, string.ascii_uppercase in the source. -/
def ALPHA : List Char := ("ABCDEFGHIJKLMNOPQRSTUVWXYZ").toList

/-- Lowercase alphabet, used to model str.upper / str.lower on ASCII. -/
def LALPHA : List Char := ("abcdefghijklmnopqrstuvwxyz").toList

/-- The sentinel key kind returned by the Caesar fast path. -/
def CAESARW : List Char := ("CAESAR").toList

/-- Model of Python str.upper on one character (ASCII letters only,
which is all the source ever feeds it). -/
def pyUpper (c : Char) : Char :=
  if c ∈ LALPHA then ALPHA.getD (LALPHA.indexOf c) c else c

/-- Model of Python str.lower on one character. -/
def pyLower (c : Char) : Char :=
  if c ∈ ALPHA then LALPHA.getD (ALPHA.indexOf c) c else c

/-- Model of Python str.lower on a whole string. -/
def pyLowerStr (s : List Char) : List Char := s.map pyLower

/-- Whitespace characters recognised by the model of str.strip. -/
def WSL : List Char := [' ', '\t', '\n', '\r']

/-- Model of Python str.strip. -/
def pyStrip (s : List Char) : List Char :=
  ((s.dropWhile (· ∈ WSL)).reverse.dropWhile (· ∈ WSL)).reverse

/-- Model of Python str.startswith with a one-character argument. -/
def startsWith (c : Char) : List Char → Bool
  | [] => false
  | x :: _ => x = c

/-- Python truthiness of an Optional[str]: None and the empty string are
falsy.  This is the test the crack orchestrator applies to the Caesar
fast-path plaintext. -/
def pyTruthy : Option (List Char) → Bool
  | none => false
  | some s => !s.isEmpty

/-- LETTER_SPACE membership: uppercase letters and the space. -/
def letterSpace (c : Char) : Bool := c ∈ ALPHA || c = ' '

/-- clean from the source: uppercase, then keep only letters and spaces. -/
def clean (t : List Char) : List Char :=
  (t.map pyUpper).filter letterSpace

/-- The substitution table built by str.maketrans(ALPHA, key): a letter
of ALPHA is replaced by the key character at the same position; any
other character is left unchanged. -/
def subst (key : List Char) (c : Char) : Char :=
  if c ∈ ALPHA then key.getD (ALPHA.indexOf c) c else c

/-- decode from the source: ct.upper().translate(maketrans(ALPHA, key)). -/
def decode (ct : List Char) (key : List Char) : List Char :=
  ct.map (fun c => subst key (pyUpper c))

/-- Modelled from the spec: the spec's invert(k), the inverse permutation
of a key, is not a function of the source (only the spec's round-trip
property mentions it).  For a permutation key it maps the image k[i] of
ALPHA[i] back to ALPHA[i]. -/
def invert (k : List Char) : List Char :=
  (List.range 26).map (fun i => ALPHA.getD (k.indexOf (ALPHA.getD i ' ')) ' ')

/-- One step of the tokenizer fold: running from the right, letters are
prepended to the current run, any other character flushes the run. -/
def tokStep (c : Char) (st : List Char × List (List Char)) :
    List Char × List (List Char) :=
  if c ∈ ALPHA then (c :: st.1, st.2)
  else ([], if st.1 = [] then st.2 else st.1 :: st.2)

/-- Maximal runs of uppercase letters, the tokens matched by the regex
[A-Z]{1,} in sense_ratio. -/
def tokenize (t : List Char) : List (List Char) :=
  let st := t.foldr tokStep ([], [])
  if st.1 = [] then st.2 else st.1 :: st.2

/-- sense_ratio from the source.  zipf models the external
wordfreq.zipf_frequency oracle, ignore models the IGNORE_SET global (a
set of lowercase words), thr is the Zipf threshold (default 3.5).
Returns 1 when no token survives the ignore filter, else the fraction of
surviving tokens whose Zipf frequency meets the threshold. -/
def senseRatio (zipf : List Char → ℚ) (ignore : List (List Char)) (thr : ℚ)
    (text : List Char) : ℚ :=
  if ((tokenize text).filter (fun w => !(ignore.contains (pyLowerStr w)))) = [] then 1
  else (((tokenize text).filter (fun w => !(ignore.contains (pyLowerStr w)))).countP
      (fun w => thr ≤ zipf (pyLowerStr w)) : ℚ) /
    ((((tokenize text).filter (fun w => !(ignore.contains (pyLowerStr w)))).length : ℚ))

/-- Model of random.sample(pool, k) drawing without replacement: each
entry of draws selects (mod the current pool size) the next element,
which is then removed from the pool.  The draws list is the randomness. -/
def sampleDraw : List Char → List ℕ → List Char
  | _, [] => []
  | [], _ :: _ => []
  | p :: ps, i :: rest =>
    (p :: ps).getD (i % (p :: ps).length) ' ' ::
      sampleDraw ((p :: ps).take (i % (p :: ps).length) ++
        (p :: ps).drop (i % (p :: ps).length + 1)) rest

/-- random_key from the source: random.sample(ALPHA, 26), with the 26
random draws made explicit. -/
def randomKey (draws : List ℕ) : List Char := sampleDraw ALPHA draws

/-- Swap the entries at positions a and b, the Python idiom
lst[a], lst[b] = lst[b], lst[a]. -/
def swapPos (k : List Char) (a b : ℕ) : List Char :=
  (k.set a (k.getD b ' ')).set b (k.getD a ' ')

/-- swap_two from the source: a and b are the two distinct positions
drawn by random.sample(range(26), 2); a fresh key is built, the input is
not touched (the model is pure, as is the Python code: it copies the key
into a list and joins a new string). -/
def swapTwo (k : List Char) (a b : ℕ) : List Char := swapPos k a b

/-- The rotation key for shift s: ALPHA[s:] + ALPHA[:s]. -/
def rotKey (s : ℕ) : List Char := ALPHA.drop s ++ ALPHA.take s

/-- The sense ratio of the ciphertext decoded under rotation s, scored on
the cleaned or merely uppercased text as in caesar_try. -/
def rotRatio (zipf : List Char → ℚ) (ignore : List (List Char))
    (useClean : Bool) (ct : List Char) (s : ℕ) : ℚ :=
  senseRatio zipf ignore (7/2)
    (if useClean then clean (decode ct (rotKey s))
     else (decode ct (rotKey s)).map pyUpper)

/-- One update of caesar_try's running best: adopt rotation s exactly
when its ratio strictly exceeds the best ratio so far. -/
def caesarStep (zipf : List Char → ℚ) (ignore : List (List Char))
    (useClean : Bool) (ct : List Char) (st : ℚ × Option (List Char)) (s : ℕ) :
    ℚ × Option (List Char) :=
  if st.1 < rotRatio zipf ignore useClean ct s
  then (rotRatio zipf ignore useClean ct s, some (decode ct (rotKey s)))
  else st

/-- caesar_try from the source: scan all 26 rotations keeping the best
sense ratio; return (plaintext, "CAESAR", ratio) when the best ratio
reaches 0.90, else (None, None, best ratio). -/
def caesarTry (zipf : List Char → ℚ) (ignore : List (List Char))
    (ct : List Char) (useClean : Bool) :
    Option (List Char) × Option (List Char) × ℚ :=
  let best := (List.range 26).foldl (caesarStep zipf ignore useClean ct) (0, none)
  if 9/10 ≤ best.1 then (best.2, some CAESARW, best.1)
  else (none, none, best.1)

/-- The 325 ordered pairs (i, j) with i < j < 26 visited by one Jakobsen
pass, in the source's iteration order. -/
def jakPairs : List (ℕ × ℕ) :=
  (List.range 25).flatMap (fun i => ((List.range 26).drop (i + 1)).map (fun j => (i, j)))

/-- One full Jakobsen pass over a list of position pairs: the swapped key
is adopted exactly when its combined score strictly exceeds the current
key's score; the Bool records whether any swap of the pass was adopted. -/
def jakPass (score : List Char → ℚ) : List (ℕ × ℕ) → List Char → Bool →
    List Char × Bool
  | [], k, ch => (k, ch)
  | (i, j) :: rest, k, ch =>
    if score k < score (swapPos k i j)
    then jakPass score rest (swapPos k i j) true
    else jakPass score rest k ch

/-- Number of permutations of the current key that score strictly higher:
an upper bound on the number of further improving passes, used as the
loop bound of the while-changed loop. -/
def jakMeasure (score : List Char → ℚ) (k : List Char) : ℕ :=
  k.permutations.countP (fun p => decide (score k < score p))

/-- The while-changed loop of jakobsen with an explicit iteration bound
(the source loops until a full pass adopts no swap; the bound is shown
sufficient in the termination theorem). -/
def jakLoopF (score : List Char → ℚ) : ℕ → List Char → List Char
  | 0, k => k
  | fuel + 1, k =>
    let r := jakPass score jakPairs k false
    if r.2 then jakLoopF score fuel r.1 else r.1

/-- The while-changed loop of jakobsen: every pass either adopts some
strictly improving swap or is the last, so jakMeasure + 1 passes always
reach the fixed point. -/
def jakLoop (score : List Char → ℚ) (k : List Char) : List Char :=
  jakLoopF score (jakMeasure score k + 1) k

/-- The combined objective maximized inside jakobsen's passes:
ngram_score(txt) + lam * word_score(txt) where txt is the decode of the
cipher under the key, cleaned when use_clean is set, merely uppercased
otherwise.  ngramS and wordS model the two scoring collaborators. -/
def jakScore (ngramS wordS : List Char → ℚ) (lam : ℚ) (cipher : List Char)
    (useClean : Bool) (k : List Char) : ℚ :=
  let raw := decode cipher k
  let txt := if useClean then clean raw else raw.map pyUpper
  ngramS txt + lam * wordS txt

/-- jakobsen from the source: run the while-changed loop, then return the
final key together with a score that is always recomputed on the CLEANED
decode, independent of the use_clean flag (source line 292). -/
def jakobsen (ngramS wordS : List Char → ℚ) (key cipher : List Char)
    (lam : ℚ) (useClean : Bool) : List Char × ℚ :=
  let bk := jakLoop (jakScore ngramS wordS lam cipher useClean) key
  (bk, ngramS (clean (decode cipher bk)) + lam * wordS (clean (decode cipher bk)))

/-- The mutable state of one annealing trajectory: current key, its
combined score, and the temperature. -/
structure AnnealSt where
  key : List Char
  s : ℚ
  temp : ℚ
  deriving DecidableEq

/-- One inner iteration of the annealing worker as a step relation.  k2
is the neighbour produced by swap_two and u the uniform draw of
random.random(); the candidate is accepted when its score is strictly
higher or when exp(d / temp) > u (Metropolis), and in either case the
temperature is then multiplied by 0.995. -/
def annealStepRel (score : List Char → ℚ) (k2 : List Char) (u : ℝ)
    (st st' : AnnealSt) : Prop :=
  ((0 < score k2 - st.s ∨ u < Real.exp (((score k2 - st.s) / st.temp : ℚ) : ℝ)) ∧
      st' = ⟨k2, score k2, st.temp * (199/200)⟩) ∨
  (¬(0 < score k2 - st.s ∨ u < Real.exp (((score k2 - st.s) / st.temp : ℚ) : ℝ)) ∧
      st' = ⟨st.key, st.s, st.temp * (199/200)⟩)

/-- A whole trajectory: chain the step relation over the list of
(neighbour, uniform draw) pairs produced by the seeded RNG. -/
def annealTraj (score : List Char → ℚ) :
    List (List Char × ℝ) → AnnealSt → AnnealSt → Prop
  | [], st, st' => st' = st
  | (k2, u) :: rest, st, st' =>
    ∃ mid, annealStepRel score k2 u st mid ∧ annealTraj score rest mid st'

/-- The local variables of crack's escalation loop. -/
structure EscState (α : Type) where
  restarts : ℕ
  iters : ℕ
  lam : ℚ
  ratio : ℚ
  best : α
  bestRatio : ℚ
  rounds : ℕ
  deriving DecidableEq

/-- One round of crack's escalation: triple restarts and iterations,
multiply lambda by 1.1, re-run the search (the oracle models crack_once
at the new parameters), recompute the sense ratio, and keep the best
result seen so far (adopted only on a strict improvement, as in the
source). -/
def escStep (oracle : ℕ → ℕ → ℚ → α) (ratioOf : α → ℚ) (st : EscState α) :
    EscState α :=
  if st.bestRatio < ratioOf (oracle (st.restarts * 3) (st.iters * 3) (st.lam * (11/10)))
  then ⟨st.restarts * 3, st.iters * 3, st.lam * (11/10),
    ratioOf (oracle (st.restarts * 3) (st.iters * 3) (st.lam * (11/10))),
    oracle (st.restarts * 3) (st.iters * 3) (st.lam * (11/10)),
    ratioOf (oracle (st.restarts * 3) (st.iters * 3) (st.lam * (11/10))),
    st.rounds + 1⟩
  else ⟨st.restarts * 3, st.iters * 3, st.lam * (11/10),
    ratioOf (oracle (st.restarts * 3) (st.iters * 3) (st.lam * (11/10))),
    st.best, st.bestRatio, st.rounds + 1⟩

/-- crack's escalation loop (source lines 418-438).  While the last ratio
is below the stop threshold and fewer than 3 rounds have run, perform one
escalation round.  The fuel is 3 - rounds. -/
def escalateLoop (oracle : ℕ → ℕ → ℚ → α) (ratioOf : α → ℚ) (stop : ℚ) :
    ℕ → EscState α → EscState α
  | 0, st => st
  | fuel + 1, st =>
    if st.ratio < stop then
      escalateLoop oracle ratioOf stop fuel (escStep oracle ratioOf st)
    else st

/-- The sense ratio crack computes for a raw plaintext:
sense_ratio(clean(raw) if use_clean else raw.upper()). -/
def crackRatio (zipf : List Char → ℚ) (ignore : List (List Char))
    (useClean : Bool) (raw : List Char) : ℚ :=
  senseRatio zipf ignore (7/2) (if useClean then clean raw else raw.map pyUpper)

/-- crack from the source.  oracle models crack_once: given (restarts,
iters, lam) it yields (best key, best raw plaintext); judge models the
Llama verdict, chk and alw the --llama-check / --llama-always flags;
ans1 and ans2 model the two input() checkpoints, none meaning EOFError;
the result none models sys.exit(0) on the quit answer. -/
def crackRun (zipf : List Char → ℚ) (ignore : List (List Char))
    (oracle : ℕ → ℕ → ℚ → List Char × List Char)
    (judge chk alw : Bool) (ans1 ans2 : Option (List Char))
    (cipher : List Char) (restarts iters : ℕ) (lam : ℚ)
    (useClean : Bool) (stop : ℚ) : Option (List Char × List Char × ℚ) :=
  let c := caesarTry zipf ignore cipher useClean
  if pyTruthy c.1 then some (c.2.1.getD [], c.1.getD [], c.2.2)
  else
    let kr := oracle restarts iters lam
    let ratio := crackRatio zipf ignore useClean kr.2
    let llamaOk := chk && (alw || decide (stop * (3/4) ≤ ratio)) && judge
    let esc := escalateLoop oracle (fun p => crackRatio zipf ignore useClean p.2)
        stop 3 ⟨restarts, iters, lam, ratio, kr, ratio, 0⟩
    if llamaOk || decide (stop ≤ ratio) then
      let ans := match ans1 with
        | none => ['a']
        | some s => pyLowerStr (pyStrip s)
      if startsWith 's' ans then some (esc.best.1, esc.best.2, esc.bestRatio)
      else if startsWith 'q' ans then none
      else some (kr.1, kr.2, ratio)
    else
      let ans := match ans2 with
        | none => ['n']
        | some s => pyLowerStr (pyStrip s)
      if ans = ['y'] || ans = [] then some (kr.1, kr.2, ratio)
      else some (esc.best.1, esc.best.2, esc.bestRatio)

/-- The pure max-by-score reduction of crack_once: Python's
max(results, key=lambda x: x[2]) keeps the first of equally scored
results. -/
def maxByScore (h : List Char × List Char × ℚ)
    (t : List (List Char × List Char × ℚ)) : List Char × List Char × ℚ :=
  t.foldl (fun b x => if b.2.2 < x.2.2 then x else b) h

/-- crack_once from the source: one seeded annealing worker per seed (the
worker function is deterministic in its seed, modelling random.seed),
results reduced by first-max score, then Jakobsen polish and a final
decode under the polished key. -/
def crackOnceModel (worker : ℕ → List Char × List Char × ℚ)
    (ngramS wordS : List Char → ℚ) (cipher : List Char) (lam : ℚ)
    (useClean : Bool) (seeds : List ℕ) : List Char × List Char × ℚ :=
  match seeds.map worker with
  | [] => ([], [], 0)
  | r :: rs =>
    let m := maxByScore r rs
    let pk := jakobsen ngramS wordS m.1 cipher lam useClean
    (pk.1, decode cipher pk.1, pk.2)

open scoped List

/-! Helper lemmas about the alphabet and the character operations. -/

theorem alpha_nodup : ALPHA.Nodup := by decide

theorem alpha_not_lower : ∀ c ∈ ALPHA, c ∉ LALPHA := by decide

theorem alpha_getD_indexOf : ∀ c ∈ ALPHA, ALPHA.getD (ALPHA.indexOf c) ' ' = c := by
  decide

theorem pyUpper_mem_alpha {c : Char} (h : c ∈ ALPHA) : pyUpper c = c := by
  unfold pyUpper
  rw [if_neg (alpha_not_lower c h)]

theorem pyUpper_of_lower {c : Char} (h : c ∈ LALPHA) : pyUpper c ∈ ALPHA := by
  have hi : LALPHA.indexOf c < LALPHA.length := List.indexOf_lt_length.mpr h
  unfold pyUpper
  rw [if_pos h, List.getD_eq_getElem _ _ (by exact hi)]
  exact List.getElem_mem _

theorem pyUpper_idem (c : Char) : pyUpper (pyUpper c) = pyUpper c := by
  by_cases h : c ∈ LALPHA
  · exact pyUpper_mem_alpha (pyUpper_of_lower h)
  · unfold pyUpper
    rw [if_neg h, if_neg h]

/-! Permutation facts about the key operations. -/

theorem getD_head_set_perm :
    ∀ (t : List Char) (b : ℕ) (c : Char), b < t.length →
      (t.getD b ' ' :: t.set b c) ~ (c :: t) := by
  intro t
  induction t with
  | nil => intro b c hb; simp at hb
  | cons x r ih =>
    intro b c hb
    match b with
    | 0 => exact List.Perm.swap c x r
    | Nat.succ m =>
      have hm : m < r.length := by simpa using hb
      calc r.getD m ' ' :: (x :: r).set (m + 1) c
          = r.getD m ' ' :: x :: r.set m c := rfl
        _ ~ x :: r.getD m ' ' :: r.set m c := List.Perm.swap _ _ _
        _ ~ x :: c :: r := (ih m c hm).cons x
        _ ~ c :: x :: r := List.Perm.swap _ _ _

theorem swapPos_comm (k : List Char) (a b : ℕ) : swapPos k a b = swapPos k b a := by
  rcases eq_or_ne a b with rfl | h
  · rfl
  · unfold swapPos
    exact List.set_comm _ _ _ h

theorem swapPos_perm :
    ∀ (k : List Char) (a b : ℕ), a < k.length → b < k.length → swapPos k a b ~ k := by
  intro k
  induction k with
  | nil => intro a b ha _; simp at ha
  | cons c t ih =>
    intro a b ha hb
    match a, b with
    | 0, 0 => simp [swapPos]
    | 0, Nat.succ m =>
      have hm : m < t.length := by simpa using hb
      have : swapPos (c :: t) 0 (m + 1) = t.getD m ' ' :: t.set m c := rfl
      rw [this]
      exact getD_head_set_perm t m c hm
    | Nat.succ n, 0 =>
      have hn : n < t.length := by simpa using ha
      rw [swapPos_comm]
      have : swapPos (c :: t) 0 (n + 1) = t.getD n ' ' :: t.set n c := rfl
      rw [this]
      exact getD_head_set_perm t n c hn
    | Nat.succ n, Nat.succ m =>
      have hn : n < t.length := by simpa using ha
      have hm : m < t.length := by simpa using hb
      have : swapPos (c :: t) (n + 1) (m + 1) = c :: swapPos t n m := rfl
      rw [this]
      exact (ih n m hn hm).cons c

theorem sampleDraw_perm :
    ∀ (draws : List ℕ) (pool : List Char), draws.length = pool.length →
      sampleDraw pool draws ~ pool := by
  intro draws
  induction draws with
  | nil =>
    intro pool h
    have : pool = [] := List.eq_nil_of_length_eq_zero h.symm
    simp [this, sampleDraw]
  | cons i rest ih =>
    intro pool h
    rw [List.length_cons] at h
    match pool with
    | [] => simp at h
    | q :: qs =>
      have hpos : 0 < (q :: qs).length := by simp
      have hj : i % (q :: qs).length < (q :: qs).length := Nat.mod_lt _ hpos
      have hlen' : rest.length = ((q :: qs).take (i % (q :: qs).length) ++
          (q :: qs).drop (i % (q :: qs).length + 1)).length := by
        rw [List.length_append, List.length_take, List.length_drop,
          Nat.min_eq_left (le_of_lt hj)]
        omega
      have hperm := ih _ hlen'
      have hdec : q :: qs = (q :: qs).take (i % (q :: qs).length) ++
          ((q :: qs)[i % (q :: qs).length] ::
            (q :: qs).drop (i % (q :: qs).length + 1)) := by
        conv_lhs => rw [← List.take_append_drop (i % (q :: qs).length) (q :: qs)]
        rw [List.getElem_cons_drop]
      calc sampleDraw (q :: qs) (i :: rest)
          = (q :: qs).getD (i % (q :: qs).length) ' ' ::
              sampleDraw ((q :: qs).take (i % (q :: qs).length) ++
                (q :: qs).drop (i % (q :: qs).length + 1)) rest := rfl
        _ = (q :: qs)[i % (q :: qs).length] ::
              sampleDraw ((q :: qs).take (i % (q :: qs).length) ++
                (q :: qs).drop (i % (q :: qs).length + 1)) rest := by
            rw [List.getD_eq_getElem _ _ hj]
        _ ~ (q :: qs)[i % (q :: qs).length] :: ((q :: qs).take (i % (q :: qs).length) ++
              (q :: qs).drop (i % (q :: qs).length + 1)) := hperm.cons _
        _ ~ q :: qs := by
            conv_rhs => rw [hdec]
            exact List.perm_middle.symm

/-- C4: every key produced by random_key (modelled with its 26 explicit
random draws) or by swap_two (positions drawn from range(26)) is a
permutation of the 26-letter alphabet, each letter exactly once.
swap_two's non-mutation of its input holds by construction: the model,
like the Python code, builds a fresh list and never writes through the
input string. -/
theorem key_ops_are_permutations (draws : List ℕ) (k : List Char) (a b : ℕ)
    (hd : draws.length = 26) (hk : k ~ ALPHA) (ha : a < 26) (hb : b < 26) :
    randomKey draws ~ ALPHA ∧ swapTwo k a b ~ ALPHA := by
  constructor
  · exact sampleDraw_perm draws ALPHA (by rw [hd]; rfl)
  · have hlen : k.length = 26 := hk.length_eq.trans rfl
    exact (swapPos_perm k a b (by omega) (by omega)).trans hk

theorem key_ops_are_permutations_witness :
    randomKey (List.replicate 26 0) ~ ALPHA ∧ swapTwo ALPHA 0 1 ~ ALPHA :=
  key_ops_are_permutations (List.replicate 26 0) ALPHA 0 1 (by decide)
    (List.Perm.refl _) (by decide) (by decide)

/-! The decode round trip. -/

theorem roundtrip_char (k : List Char) (hk : k ~ ALPHA) (ch : Char) :
    subst (invert k) (pyUpper (subst k (pyUpper ch))) = pyUpper ch := by
  have hlen : k.length = 26 := hk.length_eq.trans rfl
  have hnd : k.Nodup := (hk.nodup_iff).mpr alpha_nodup
  have hmem : ∀ x ∈ k, x ∈ ALPHA := fun x hx => hk.mem_iff.mp hx
  by_cases hA : pyUpper ch ∈ ALPHA
  · have hi : ALPHA.indexOf (pyUpper ch) < 26 := List.indexOf_lt_length.mpr hA
    have hik : ALPHA.indexOf (pyUpper ch) < k.length := by omega
    have h1 : subst k (pyUpper ch) = k[ALPHA.indexOf (pyUpper ch)] := by
      unfold subst
      rw [if_pos hA, List.getD_eq_getElem _ _ hik]
    have hvA : k[ALPHA.indexOf (pyUpper ch)] ∈ ALPHA :=
      hmem _ (List.getElem_mem _)
    have hvU : pyUpper k[ALPHA.indexOf (pyUpper ch)] = k[ALPHA.indexOf (pyUpper ch)] :=
      pyUpper_mem_alpha hvA
    have hj : ALPHA.indexOf k[ALPHA.indexOf (pyUpper ch)] < 26 :=
      List.indexOf_lt_length.mpr hvA
    have hinvlen : (invert k).length = 26 := by
      unfold invert
      simp
    rw [h1, hvU]
    unfold subst
    rw [if_pos hvA]
    rw [List.getD_eq_getElem _ _ (show ALPHA.indexOf k[ALPHA.indexOf (pyUpper ch)] <
      (invert k).length by omega)]
    unfold invert
    rw [List.getElem_map, List.getElem_range,
      alpha_getD_indexOf _ hvA, List.indexOf_getElem hnd _ hik,
      alpha_getD_indexOf _ hA]
  · have h1 : subst k (pyUpper ch) = pyUpper ch := by
      unfold subst
      rw [if_neg hA]
    rw [h1, pyUpper_idem]
    unfold subst
    rw [if_neg hA]

/-- C5 (amended): decoding under a permutation key and then under its
inverse recovers the UPPERCASED original with every non-letter preserved
in place; it agrees with clean(c) exactly on inputs whose uppercasing
consists of letters and spaces only (clean also deletes digits and
punctuation, which the round trip keeps). -/
theorem decode_invert_roundtrip (k : List Char) (hk : k ~ ALPHA) (c : List Char) :
    decode (decode c k) (invert k) = c.map pyUpper ∧
    ((∀ x ∈ c.map pyUpper, letterSpace x = true) →
      decode (decode c k) (invert k) = clean c) := by
  have hmain : decode (decode c k) (invert k) = c.map pyUpper := by
    induction c with
    | nil => rfl
    | cons x xs ihc =>
      have hstep : decode (decode (x :: xs) k) (invert k) =
          subst (invert k) (pyUpper (subst k (pyUpper x))) ::
            decode (decode xs k) (invert k) := rfl
      rw [hstep, List.map_cons, roundtrip_char k hk x, ihc]
  refine ⟨hmain, fun hall => ?_⟩
  rw [hmain]
  unfold clean
  rw [List.filter_eq_self.mpr hall]

/-- C5 counterexample: for the ciphertext "!" and the identity
permutation key, the round trip keeps the "!" while clean deletes it, so
the claimed identity decode(decode(c, k), invert(k)) = clean(c) fails. -/
theorem decode_invert_roundtrip_cex :
    decode (decode ['!'] ALPHA) (invert ALPHA) ≠ clean ['!'] := by decide

theorem decode_invert_roundtrip_witness :
    decode (decode ['a', ' '] ALPHA) (invert ALPHA) = ['a', ' '].map pyUpper ∧
    ((∀ x ∈ ['a', ' '].map pyUpper, letterSpace x = true) →
      decode (decode ['a', ' '] ALPHA) (invert ALPHA) = clean ['a', ' ']) :=
  decode_invert_roundtrip ALPHA (List.Perm.refl _) ['a', ' ']

/-- C7: sense_ratio always lies in [0, 1], and equals exactly 1 whenever
the ignore set filters out every token of the text. -/
theorem senseRatio_bounds (zipf : List Char → ℚ) (ignore : List (List Char))
    (thr : ℚ) (text : List Char) :
    0 ≤ senseRatio zipf ignore thr text ∧ senseRatio zipf ignore thr text ≤ 1 ∧
    (((tokenize text).filter (fun w => !(ignore.contains (pyLowerStr w)))) = [] →
      senseRatio zipf ignore thr text = 1) := by
  by_cases h : (tokenize text).filter (fun w => !(ignore.contains (pyLowerStr w))) = []
  · refine ⟨?_, ?_, fun _ => ?_⟩
    · unfold senseRatio
      rw [if_pos h]
      norm_num
    · unfold senseRatio
      rw [if_pos h]
    · unfold senseRatio
      rw [if_pos h]
  · have hpos : (0 : ℚ) <
        (((tokenize text).filter (fun w => !(ignore.contains (pyLowerStr w)))).length : ℚ) := by
      exact_mod_cast List.length_pos.mpr h
    refine ⟨?_, ?_, fun hc => absurd hc h⟩
    · unfold senseRatio
      rw [if_neg h]
      exact div_nonneg (by exact_mod_cast Nat.zero_le _) (le_of_lt hpos)
    · unfold senseRatio
      rw [if_neg h]
      rw [div_le_one hpos]
      exact_mod_cast List.countP_le_length _

theorem senseRatio_bounds_witness : senseRatio (fun _ => 0) [] (7/2) ['a'] = 1 :=
  (senseRatio_bounds (fun _ => 0) [] (7/2) ['a']).2.2 (by decide)

/-! The escalation loop. -/

theorem escStep_bestRatio_le {α : Type} (oracle : ℕ → ℕ → ℚ → α)
    (ratioOf : α → ℚ) (st : EscState α) :
    st.bestRatio ≤ (escStep oracle ratioOf st).bestRatio := by
  unfold escStep
  split
  · exact le_of_lt (by assumption)
  · exact le_refl _

theorem escStep_fields {α : Type} (oracle : ℕ → ℕ → ℚ → α)
    (ratioOf : α → ℚ) (st : EscState α) :
    (escStep oracle ratioOf st).restarts = st.restarts * 3 ∧
    (escStep oracle ratioOf st).iters = st.iters * 3 ∧
    (escStep oracle ratioOf st).lam = st.lam * (11/10) ∧
    (escStep oracle ratioOf st).rounds = st.rounds + 1 := by
  unfold escStep
  split <;> exact ⟨rfl, rfl, rfl, rfl⟩

theorem escalateLoop_inv {α : Type} (oracle : ℕ → ℕ → ℚ → α) (ratioOf : α → ℚ)
    (stop : ℚ) :
    ∀ (fuel : ℕ) (st : EscState α),
      st.bestRatio ≤ (escalateLoop oracle ratioOf stop fuel st).bestRatio ∧
      ∃ j ≤ fuel,
        (escalateLoop oracle ratioOf stop fuel st).rounds = st.rounds + j ∧
        (escalateLoop oracle ratioOf stop fuel st).restarts = st.restarts * 3 ^ j ∧
        (escalateLoop oracle ratioOf stop fuel st).iters = st.iters * 3 ^ j ∧
        (escalateLoop oracle ratioOf stop fuel st).lam = st.lam * (11/10) ^ j ∧
        (0 < fuel → st.ratio < stop → 1 ≤ j) := by
  intro fuel
  induction fuel with
  | zero =>
    intro st
    exact ⟨le_refl _, 0, le_refl _, by simp [escalateLoop]⟩
  | succ n ih =>
    intro st
    by_cases hr : st.ratio < stop
    · have hstep : escalateLoop oracle ratioOf stop (n + 1) st =
          escalateLoop oracle ratioOf stop n (escStep oracle ratioOf st) := by
        rw [escalateLoop, if_pos hr]
      rcases ih (escStep oracle ratioOf st) with
        ⟨hbest, j, hj, hrounds, hres, hit, hlam, -⟩
      rcases escStep_fields oracle ratioOf st with ⟨hfr, hfi, hfl, hfn⟩
      constructor
      · rw [hstep]
        exact le_trans (escStep_bestRatio_le oracle ratioOf st) hbest
      · refine ⟨j + 1, by omega, ?_, ?_, ?_, ?_, fun _ _ => by omega⟩
        · rw [hstep, hrounds, hfn]
          omega
        · rw [hstep, hres, hfr, pow_succ]
          ring
        · rw [hstep, hit, hfi, pow_succ]
          ring
        · rw [hstep, hlam, hfl, pow_succ]
          ring
    · have hstep : escalateLoop oracle ratioOf stop (n + 1) st = st := by
        rw [escalateLoop, if_neg hr]
      rw [hstep]
      exact ⟨le_refl _, 0, by omega, by simp, by simp, by simp, by simp,
        fun _ hc => absurd hc hr⟩

/-- C1: starting the escalation loop (as crack does) with best = the
initial first-pass result and its ratio, every round multiplies restarts
by 3, iterations by 3 and lambda by 1.1; at most 3 rounds run; at least
one round runs when the initial ratio is below the stop threshold; and
the sense ratio finally returned (the best seen across all rounds) is
never below the pre-escalation ratio. -/
theorem crack_escalation_bounds {α : Type} (oracle : ℕ → ℕ → ℚ → α)
    (ratioOf : α → ℚ) (stop : ℚ) (restarts iters : ℕ) (lam ratio : ℚ) (res : α) :
    ratio ≤ (escalateLoop oracle ratioOf stop 3
        ⟨restarts, iters, lam, ratio, res, ratio, 0⟩).bestRatio ∧
    ∃ j ≤ 3,
      (escalateLoop oracle ratioOf stop 3
          ⟨restarts, iters, lam, ratio, res, ratio, 0⟩).rounds = j ∧
      (escalateLoop oracle ratioOf stop 3
          ⟨restarts, iters, lam, ratio, res, ratio, 0⟩).restarts = restarts * 3 ^ j ∧
      (escalateLoop oracle ratioOf stop 3
          ⟨restarts, iters, lam, ratio, res, ratio, 0⟩).iters = iters * 3 ^ j ∧
      (escalateLoop oracle ratioOf stop 3
          ⟨restarts, iters, lam, ratio, res, ratio, 0⟩).lam = lam * (11/10) ^ j ∧
      (ratio < stop → 1 ≤ j) := by
  rcases escalateLoop_inv oracle ratioOf stop 3
      ⟨restarts, iters, lam, ratio, res, ratio, 0⟩ with ⟨hbest, j, hj, hrounds, hres, hit, hlam, hlow⟩
  exact ⟨hbest, j, hj, by simpa using hrounds, hres, hit, hlam, hlow (by omega)⟩

theorem crack_escalation_bounds_witness :
    (1 : ℚ) ≤ (escalateLoop (fun _ _ _ => ()) (fun _ => 1) (1/2) 3
        ⟨60, 5000, 3/2, 1, (), 1, 0⟩).bestRatio :=
  (crack_escalation_bounds (fun _ _ _ => ()) (fun _ => 1) (1/2) 60 5000 (3/2) 1 ()).1

/-! The annealing worker. -/

theorem annealTraj_temp (score : List Char → ℚ) :
    ∀ (steps : List (List Char × ℝ)) (t0 t1 : AnnealSt),
      annealTraj score steps t0 t1 → 0 < t0.temp →
        t1.temp = t0.temp * (199/200) ^ steps.length ∧
        (steps ≠ [] → t1.temp < t0.temp) := by
  intro steps
  induction steps with
  | nil =>
    intro t0 t1 h _
    rw [show t1 = t0 from h]
    exact ⟨by norm_num, fun hc => absurd rfl hc⟩
  | cons p rest ih =>
    intro t0 t1 h hpos
    rcases p with ⟨k2, u⟩
    rcases h with ⟨mid, hstep, htraj⟩
    have hmid : mid.temp = t0.temp * (199/200) := by
      rcases hstep with ⟨-, rfl⟩ | ⟨-, rfl⟩ <;> rfl
    have hmidpos : 0 < mid.temp := by
      rw [hmid]
      positivity
    rcases ih mid t1 htraj hmidpos with ⟨hEq, -⟩
    constructor
    · rw [hEq, hmid, List.length_cons, pow_succ]
      ring
    · intro _
      rw [hEq, hmid]
      calc t0.temp * (199/200) * (199/200) ^ rest.length
          ≤ t0.temp * (199/200) * 1 := by
            refine mul_le_mul_of_nonneg_left ?_ (by positivity)
            exact pow_le_one₀ (by norm_num) (by norm_num)
        _ < t0.temp := by nlinarith

/-- C6: in one inner annealing iteration the candidate is adopted
unconditionally when its combined score is strictly higher, and
otherwise exactly when exp((candidate - current) / temperature) exceeds
the uniform draw; the temperature is multiplied by the fixed decay 0.995
in both the accepting and the rejecting case, so along any trajectory
with positive starting temperature (the source starts at 20.0) the
temperature strictly decreases at every inner iteration. -/
theorem anneal_step_decay (score : List Char → ℚ) (k2 : List Char) (u : ℝ)
    (st st' : AnnealSt) (h : annealStepRel score k2 u st st') :
    st'.temp = st.temp * (199/200) ∧
    (0 < st.temp → st'.temp < st.temp ∧ 0 < st'.temp) ∧
    (0 < score k2 - st.s → st'.key = k2 ∧ st'.s = score k2) ∧
    ((0 < score k2 - st.s ∨ u < Real.exp (((score k2 - st.s) / st.temp : ℚ) : ℝ)) →
      st' = ⟨k2, score k2, st.temp * (199/200)⟩) ∧
    (¬(0 < score k2 - st.s ∨ u < Real.exp (((score k2 - st.s) / st.temp : ℚ) : ℝ)) →
      st' = ⟨st.key, st.s, st.temp * (199/200)⟩) ∧
    (∀ (steps : List (List Char × ℝ)) (t0 t1 : AnnealSt),
      annealTraj score steps t0 t1 → 0 < t0.temp →
        t1.temp = t0.temp * (199/200) ^ steps.length ∧
        (steps ≠ [] → t1.temp < t0.temp)) := by
  have htemp : st'.temp = st.temp * (199/200) := by
    rcases h with ⟨-, rfl⟩ | ⟨-, rfl⟩ <;> rfl
  refine ⟨htemp, fun hpos => ⟨?_, ?_⟩, fun hd => ?_, fun hacc => ?_, fun hrej => ?_,
    annealTraj_temp score⟩
  · rw [htemp]
    nlinarith
  · rw [htemp]
    positivity
  · rcases h with ⟨-, rfl⟩ | ⟨hn, -⟩
    · exact ⟨rfl, rfl⟩
    · exact absurd (Or.inl hd) hn
  · rcases h with ⟨-, rfl⟩ | ⟨hn, -⟩
    · rfl
    · exact absurd hacc hn
  · rcases h with ⟨hc, -⟩ | ⟨-, rfl⟩
    · exact absurd hc hrej
    · rfl

theorem anneal_step_decay_witness :
    (AnnealSt.mk [] 0 (20 * (199/200))).temp = (AnnealSt.mk [] 0 20).temp * (199/200) :=
  (anneal_step_decay (fun _ => 0) [] 0 ⟨[], 0, 20⟩ ⟨[], 0, 20 * (199/200)⟩
    (Or.inl ⟨Or.inr (by simp [Real.exp_pos]), rfl⟩)).1

/-! The restart orchestration. -/

theorem maxByScore_le (h : List Char × List Char × ℚ)
    (t : List (List Char × List Char × ℚ)) :
    ∀ x ∈ h :: t, x.2.2 ≤ (maxByScore h t).2.2 := by
  induction t generalizing h with
  | nil =>
    intro x hx
    rcases List.mem_cons.mp hx with rfl | hx
    · exact le_refl _
    · simp at hx
  | cons y rest ih =>
    intro x hx
    have hstep : maxByScore h (y :: rest) =
        maxByScore (if h.2.2 < y.2.2 then y else h) rest := rfl
    have hh : h.2.2 ≤ (if h.2.2 < y.2.2 then y else h).2.2 := by
      split
      · exact le_of_lt (by assumption)
      · exact le_refl _
    have hy : y.2.2 ≤ (if h.2.2 < y.2.2 then y else h).2.2 := by
      split
      · exact le_refl _
      · exact le_of_not_lt (by assumption)
    rcases List.mem_cons.mp hx with rfl | hx
    · rw [hstep]
      exact le_trans hh (ih _ _ (List.mem_cons_self _ _))
    · rcases List.mem_cons.mp hx with rfl | hx
      · rw [hstep]
        exact le_trans hy (ih _ _ (List.mem_cons_self _ _))
      · rw [hstep]
        exact ih _ _ (List.mem_cons_of_mem _ hx)

/-- C9: the restart orchestration is a pure function of the per-worker
seed sequence (each worker being deterministic in its seed, which models
random.seed(seed) at worker start) and of the fixed search parameters:
two invocations with identical seed sequences, and hence identical
worker counts, return bit-identical triples (key, plaintext, score).
Moreover the reduction the orchestrator applies is a pure max-by-score
fold: every worker result scores no higher than the selected one. -/
theorem crack_once_reproducible (worker : ℕ → List Char × List Char × ℚ)
    (ngramS wordS : List Char → ℚ) (cipher : List Char) (lam : ℚ)
    (useClean : Bool) (seeds1 seeds2 : List ℕ) (h : seeds1 = seeds2) :
    crackOnceModel worker ngramS wordS cipher lam useClean seeds1 =
      crackOnceModel worker ngramS wordS cipher lam useClean seeds2 ∧
    (∀ (r : List Char × List Char × ℚ) (rs : List (List Char × List Char × ℚ)),
      ∀ x ∈ r :: rs, x.2.2 ≤ (maxByScore r rs).2.2) := by
  exact ⟨by rw [h], fun r rs => maxByScore_le r rs⟩

theorem crack_once_reproducible_witness :
    crackOnceModel (fun s => (ALPHA, [], (s : ℚ))) (fun _ => 0) (fun _ => 0)
        ['A'] (3/2) false [1, 2, 3] =
      crackOnceModel (fun s => (ALPHA, [], (s : ℚ))) (fun _ => 0) (fun _ => 0)
        ['A'] (3/2) false [1, 2, 3] :=
  (crack_once_reproducible (fun s => (ALPHA, [], (s : ℚ))) (fun _ => 0) (fun _ => 0)
    ['A'] (3/2) false [1, 2, 3] [1, 2, 3] rfl).1

/-! The Jakobsen polisher. -/

theorem jakPass_length (score : List Char → ℚ) :
    ∀ (pairs : List (ℕ × ℕ)) (k : List Char) (ch : Bool),
      ((jakPass score pairs k ch).1).length = k.length := by
  intro pairs
  induction pairs with
  | nil => intro k ch; rfl
  | cons p rest ih =>
    intro k ch
    rcases p with ⟨i, j⟩
    show (if score k < score (swapPos k i j)
      then jakPass score rest (swapPos k i j) true
      else jakPass score rest k ch).1.length = k.length
    split
    · rw [ih]
      unfold swapPos
      rw [List.length_set, List.length_set]
    · rw [ih]

theorem jakPass_mono (score : List Char → ℚ) :
    ∀ (pairs : List (ℕ × ℕ)) (k : List Char) (ch : Bool),
      score k ≤ score ((jakPass score pairs k ch).1) := by
  intro pairs
  induction pairs with
  | nil => intro k ch; exact le_refl _
  | cons p rest ih =>
    intro k ch
    rcases p with ⟨i, j⟩
    show score k ≤ score (if score k < score (swapPos k i j)
      then jakPass score rest (swapPos k i j) true
      else jakPass score rest k ch).1
    split
    · exact le_trans (le_of_lt (by assumption)) (ih _ _)
    · exact ih _ _

theorem jakPass_stays_true (score : List Char → ℚ) :
    ∀ (pairs : List (ℕ × ℕ)) (k : List Char),
      (jakPass score pairs k true).2 = true := by
  intro pairs
  induction pairs with
  | nil => intro k; rfl
  | cons p rest ih =>
    intro k
    rcases p with ⟨i, j⟩
    show (if score k < score (swapPos k i j)
      then jakPass score rest (swapPos k i j) true
      else jakPass score rest k true).2 = true
    split
    · exact ih _
    · exact ih _

theorem jakPass_strict (score : List Char → ℚ) :
    ∀ (pairs : List (ℕ × ℕ)) (k : List Char),
      (jakPass score pairs k false).2 = true →
        score k < score ((jakPass score pairs k false).1) := by
  intro pairs
  induction pairs with
  | nil => intro k h; simp [jakPass] at h
  | cons p rest ih =>
    intro k h
    rcases p with ⟨i, j⟩
    by_cases hs : score k < score (swapPos k i j)
    · have hstep : jakPass score ((i, j) :: rest) k false =
          jakPass score rest (swapPos k i j) true := by
        show (if score k < score (swapPos k i j)
          then jakPass score rest (swapPos k i j) true
          else jakPass score rest k false) = _
        rw [if_pos hs]
      rw [hstep]
      exact lt_of_lt_of_le hs (jakPass_mono score rest _ true)
    · have hstep : jakPass score ((i, j) :: rest) k false =
          jakPass score rest k false := by
        show (if score k < score (swapPos k i j)
          then jakPass score rest (swapPos k i j) true
          else jakPass score rest k false) = _
        rw [if_neg hs]
      rw [hstep] at h ⊢
      exact ih k h

theorem jakPass_fix (score : List Char → ℚ) :
    ∀ (pairs : List (ℕ × ℕ)) (k : List Char),
      (jakPass score pairs k false).2 = false →
        (jakPass score pairs k false).1 = k := by
  intro pairs
  induction pairs with
  | nil => intro k _; rfl
  | cons p rest ih =>
    intro k h
    rcases p with ⟨i, j⟩
    by_cases hs : score k < score (swapPos k i j)
    · have hstep : jakPass score ((i, j) :: rest) k false =
          jakPass score rest (swapPos k i j) true := by
        show (if score k < score (swapPos k i j)
          then jakPass score rest (swapPos k i j) true
          else jakPass score rest k false) = _
        rw [if_pos hs]
      rw [hstep] at h
      rw [jakPass_stays_true score rest _] at h
      exact absurd h (by simp)
    · have hstep : jakPass score ((i, j) :: rest) k false =
          jakPass score rest k false := by
        show (if score k < score (swapPos k i j)
          then jakPass score rest (swapPos k i j) true
          else jakPass score rest k false) = _
        rw [if_neg hs]
      rw [hstep] at h ⊢
      exact ih k h

set_option maxRecDepth 8000 in
theorem jakPairs_bounds : ∀ p ∈ jakPairs, p.1 < 26 ∧ p.2 < 26 := by decide

theorem jakPass_perm (score : List Char → ℚ) :
    ∀ (pairs : List (ℕ × ℕ)), (∀ p ∈ pairs, p.1 < 26 ∧ p.2 < 26) →
      ∀ (k : List Char) (ch : Bool), k.length = 26 →
        (jakPass score pairs k ch).1 ~ k := by
  intro pairs
  induction pairs with
  | nil => intro _ k ch _; exact List.Perm.refl _
  | cons p rest ih =>
    intro hb k ch hk
    rcases p with ⟨i, j⟩
    rcases hb _ (List.mem_cons_self _ _) with ⟨hi, hj⟩
    have hb' : ∀ p ∈ rest, p.1 < 26 ∧ p.2 < 26 :=
      fun p hp => hb p (List.mem_cons_of_mem _ hp)
    have hswap : swapPos k i j ~ k := swapPos_perm k i j (by omega) (by omega)
    have hswaplen : (swapPos k i j).length = 26 := by
      rw [hswap.length_eq, hk]
    show (if score k < score (swapPos k i j)
      then jakPass score rest (swapPos k i j) true
      else jakPass score rest k ch).1 ~ k
    split
    · exact (ih hb' _ true hswaplen).trans hswap
    · exact ih hb' _ ch hk

theorem countP_strict_mono {α : Type} (p q : α → Bool)
    (himp : ∀ x, q x = true → p x = true) :
    ∀ (l : List α) (a : α), a ∈ l → p a = true → q a = false →
      l.countP q < l.countP p := by
  intro l
  induction l with
  | nil => intro a ha; simp at ha
  | cons y t ih =>
    intro a ha hp hq
    rw [List.countP_cons, List.countP_cons]
    rcases List.mem_cons.mp ha with rfl | hat
    · rw [hp, hq]
      have hmono : t.countP q ≤ t.countP p :=
        List.countP_mono_left (fun x _ hx => himp x hx)
      simpa using Nat.lt_succ_of_le hmono
    · have hlt : t.countP q < t.countP p := ih a hat hp hq
      have hif : (if q y = true then 1 else 0) ≤ (if p y = true then 1 else 0) := by
        by_cases hqy : q y = true
        · rw [if_pos hqy, if_pos (himp y hqy)]
        · rw [if_neg hqy]
          omega
      omega

theorem jakMeasure_decrease (score : List Char → ℚ) (k : List Char)
    (hk : k.length = 26) (hc : (jakPass score jakPairs k false).2 = true) :
    jakMeasure score ((jakPass score jakPairs k false).1) < jakMeasure score k := by
  have hstrict : score k < score ((jakPass score jakPairs k false).1) :=
    jakPass_strict score jakPairs k hc
  have hperm : (jakPass score jakPairs k false).1 ~ k :=
    jakPass_perm score jakPairs jakPairs_bounds k false hk
  unfold jakMeasure
  rw [(hperm.permutations).countP_eq]
  refine countP_strict_mono _ _ ?_ k.permutations
    ((jakPass score jakPairs k false).1) ?_ ?_ ?_
  · intro x hx
    simp only [decide_eq_true_eq] at hx ⊢
    exact lt_trans hstrict hx
  · exact List.mem_permutations.mpr hperm
  · simp only [decide_eq_true_eq]
    exact hstrict
  · simp only [decide_eq_false_iff_not]
    exact lt_irrefl _

theorem jakLoopF_spec (score : List Char → ℚ) :
    ∀ (fuel : ℕ) (k : List Char), jakMeasure score k < fuel → k.length = 26 →
      score k ≤ score (jakLoopF score fuel k) ∧
      jakPass score jakPairs (jakLoopF score fuel k) false =
        (jakLoopF score fuel k, false) := by
  intro fuel
  induction fuel with
  | zero => intro k hm; omega
  | succ n ih =>
    intro k hm hk
    by_cases hc : (jakPass score jakPairs k false).2 = true
    · have hstep : jakLoopF score (n + 1) k =
          jakLoopF score n ((jakPass score jakPairs k false).1) := by
        show (if (jakPass score jakPairs k false).2
          then jakLoopF score n (jakPass score jakPairs k false).1
          else (jakPass score jakPairs k false).1) = _
        rw [hc]
        simp
      have hm' : jakMeasure score ((jakPass score jakPairs k false).1) < n := by
        have := jakMeasure_decrease score k hk hc
        omega
      have hk' : ((jakPass score jakPairs k false).1).length = 26 := by
        rw [jakPass_length score jakPairs k false, hk]
      rcases ih _ hm' hk' with ⟨hmono, hfixp⟩
      rw [hstep]
      exact ⟨le_trans (le_of_lt (jakPass_strict score jakPairs k hc)) hmono, hfixp⟩
    · have hc' : (jakPass score jakPairs k false).2 = false :=
        Bool.not_eq_true _ ▸ (by simpa using hc)
      have hfixk : (jakPass score jakPairs k false).1 = k :=
        jakPass_fix score jakPairs k hc'
      have hstep : jakLoopF score (n + 1) k = k := by
        show (if (jakPass score jakPairs k false).2
          then jakLoopF score n (jakPass score jakPairs k false).1
          else (jakPass score jakPairs k false).1) = _
        rw [hc']
        simpa using hfixk
      rw [hstep]
      refine ⟨le_refl _, ?_⟩
      have hpair : jakPass score jakPairs k false =
          ((jakPass score jakPairs k false).1, (jakPass score jakPairs k false).2) := rfl
      rw [hpair, hfixk, hc']

/-- C3: the Jakobsen polisher adopts a swapped key only on a strict
improvement of the combined score (the strict comparison is the guard of
jakPass), hence the score of the adopted key never decreases, neither
within one pass nor across the whole while-changed loop; and the loop
always terminates at a local optimum, namely a key on which a complete
pass over all 325 position pairs adopts zero improving swaps. -/
theorem jakobsen_monotone (score : List Char → ℚ) (k : List Char)
    (hk : k.length = 26) :
    (∀ (pairs : List (ℕ × ℕ)) (ch : Bool),
      score k ≤ score ((jakPass score pairs k ch).1)) ∧
    score k ≤ score (jakLoop score k) ∧
    jakPass score jakPairs (jakLoop score k) false = (jakLoop score k, false) := by
  refine ⟨fun pairs ch => jakPass_mono score pairs k ch, ?_, ?_⟩
  · exact (jakLoopF_spec score (jakMeasure score k + 1) k (by omega) hk).1
  · exact (jakLoopF_spec score (jakMeasure score k + 1) k (by omega) hk).2

theorem jakobsen_monotone_witness :
    jakPass (fun _ => (0 : ℚ)) jakPairs (jakLoop (fun _ => 0) ALPHA) false =
      (jakLoop (fun _ => 0) ALPHA, false) :=
  (jakobsen_monotone (fun _ => 0) ALPHA (by decide)).2.2

/-! The score jakobsen reports. -/

theorem jakPass_const (score : List Char → ℚ)
    (hconst : ∀ x y : List Char, score x = score y) :
    ∀ (pairs : List (ℕ × ℕ)) (k : List Char) (ch : Bool),
      jakPass score pairs k ch = (k, ch) := by
  intro pairs
  induction pairs with
  | nil => intro k ch; rfl
  | cons p rest ih =>
    intro k ch
    rcases p with ⟨i, j⟩
    show (if score k < score (swapPos k i j)
      then jakPass score rest (swapPos k i j) true
      else jakPass score rest k ch) = (k, ch)
    rw [if_neg (by rw [hconst k (swapPos k i j)]; exact lt_irrefl _)]
    exact ih k ch

theorem jakLoopF_const (score : List Char → ℚ)
    (hconst : ∀ x y : List Char, score x = score y) :
    ∀ (fuel : ℕ) (k : List Char), jakLoopF score fuel k = k := by
  intro fuel
  induction fuel with
  | zero => intro k; rfl
  | succ n _ =>
    intro k
    show (if (jakPass score jakPairs k false).2
      then jakLoopF score n (jakPass score jakPairs k false).1
      else (jakPass score jakPairs k false).1) = k
    rw [jakPass_const score hconst jakPairs k false]
    simp

/-- C10: the score jakobsen returns with its final key is always the
clean-text combined score ngram(clean(decode)) + lam * word(clean(decode))
of that key, whatever use_clean says; as a consequence, with use_clean
false the returned score can differ from the combined score, under the
objective the passes actually maximized, of the very key returned: the
ciphertext "AB!CD" with a length-scoring word model shows a 4 against a
5 (clean glues AB and CD into one 4-letter token block, the uppercase
text keeps all 5 characters). -/
theorem jakobsen_final_score_cleaned :
    (∀ (ngramS wordS : List Char → ℚ) (key cipher : List Char) (lam : ℚ)
      (useClean : Bool),
      (jakobsen ngramS wordS key cipher lam useClean).2 =
        ngramS (clean (decode cipher (jakobsen ngramS wordS key cipher lam useClean).1)) +
        lam * wordS (clean (decode cipher (jakobsen ngramS wordS key cipher lam useClean).1))) ∧
    (jakobsen (fun _ => 0) (fun t => (t.length : ℚ)) ALPHA
        ['A', 'B', '!', 'C', 'D'] 1 false).2 ≠
      jakScore (fun _ => 0) (fun t => (t.length : ℚ)) 1 ['A', 'B', '!', 'C', 'D'] false
        (jakobsen (fun _ => 0) (fun t => (t.length : ℚ)) ALPHA
          ['A', 'B', '!', 'C', 'D'] 1 false).1 := by
  constructor
  · intro ngramS wordS key cipher lam useClean
    rfl
  · have hconst : ∀ x y : List Char,
        jakScore (fun _ => 0) (fun t => (t.length : ℚ)) 1 ['A', 'B', '!', 'C', 'D'] false x =
        jakScore (fun _ => 0) (fun t => (t.length : ℚ)) 1 ['A', 'B', '!', 'C', 'D'] false y := by
      intro x y
      unfold jakScore decode
      simp
    have hloop : jakLoop (jakScore (fun _ => 0) (fun t => (t.length : ℚ)) 1
        ['A', 'B', '!', 'C', 'D'] false) ALPHA = ALPHA := by
      unfold jakLoop
      exact jakLoopF_const _ hconst _ _
    have hfull : jakobsen (fun _ => 0) (fun t => (t.length : ℚ)) ALPHA
        ['A', 'B', '!', 'C', 'D'] 1 false = (ALPHA, 4) := by
      unfold jakobsen
      rw [hloop]
      with_unfolding_all decide
    rw [hfull]
    with_unfolding_all decide

/-! The Caesar fast path. -/

theorem caesarFold_inv (zipf : List Char → ℚ) (ig : List (List Char))
    (useClean : Bool) (ct : List Char) :
    ∀ (l : List ℕ) (st : ℚ × Option (List Char)),
      st.1 ≤ (l.foldl (caesarStep zipf ig useClean ct) st).1 ∧
      (∀ s ∈ l, rotRatio zipf ig useClean ct s ≤
        (l.foldl (caesarStep zipf ig useClean ct) st).1) ∧
      (l.foldl (caesarStep zipf ig useClean ct) st = st ∨
        ∃ s ∈ l, l.foldl (caesarStep zipf ig useClean ct) st =
          (rotRatio zipf ig useClean ct s, some (decode ct (rotKey s)))) := by
  intro l
  induction l with
  | nil =>
    intro st
    exact ⟨le_refl _, by simp, Or.inl rfl⟩
  | cons s rest ih =>
    intro st
    have hfold : (s :: rest).foldl (caesarStep zipf ig useClean ct) st =
        rest.foldl (caesarStep zipf ig useClean ct)
          (caesarStep zipf ig useClean ct st s) := rfl
    rcases ih (caesarStep zipf ig useClean ct st s) with ⟨h1, h2, h3⟩
    have hstep_le : st.1 ≤ (caesarStep zipf ig useClean ct st s).1 := by
      unfold caesarStep
      split
      · exact le_of_lt (by assumption)
      · exact le_refl _
    have hstep_s : rotRatio zipf ig useClean ct s ≤
        (caesarStep zipf ig useClean ct st s).1 := by
      unfold caesarStep
      split
      · exact le_refl _
      · exact le_of_not_lt (by assumption)
    refine ⟨?_, ?_, ?_⟩
    · rw [hfold]
      exact le_trans hstep_le h1
    · intro t ht
      rcases List.mem_cons.mp ht with rfl | ht
      · rw [hfold]
        exact le_trans hstep_s h1
      · rw [hfold]
        exact h2 t ht
    · rw [hfold]
      rcases h3 with heq | ⟨t, ht, heq⟩
      · rw [heq]
        unfold caesarStep
        split
        · exact Or.inr ⟨s, List.mem_cons_self _ _, rfl⟩
        · exact Or.inl rfl
      · exact Or.inr ⟨t, List.mem_cons_of_mem _ ht, heq⟩

/-- C2 (amended): caesar_try scans all 26 rotations; when the best
decoded sense ratio reaches 0.90 it returns the sentinel key kind
"CAESAR" together with the best rotation's plaintext (which dominates
every rotation's ratio), and crack then returns this result untouched —
performing no annealing, whatever the oracle would do — PROVIDED the
ciphertext (hence the plaintext) is non-empty: crack tests the plaintext
for Python truthiness, so the empty plaintext of an empty ciphertext
falls through to the annealing search even though the fast path reported
ratio 1 ≥ 0.90.  When the best ratio is below 0.90 it returns the
no-confident-rotation pair (None, None) with the best ratio observed. -/
theorem caesar_fastpath (zipf : List Char → ℚ) (ig : List (List Char))
    (ct : List Char) (useClean : Bool) :
    (9/10 ≤ (caesarTry zipf ig ct useClean).2.2 →
      (caesarTry zipf ig ct useClean).2.1 = some CAESARW ∧
      ∃ s, s < 26 ∧
        (caesarTry zipf ig ct useClean).1 = some (decode ct (rotKey s)) ∧
        (caesarTry zipf ig ct useClean).2.2 = rotRatio zipf ig useClean ct s ∧
        (∀ t, t < 26 → rotRatio zipf ig useClean ct t ≤
          (caesarTry zipf ig ct useClean).2.2) ∧
        (ct ≠ [] →
          ∀ (oracle : ℕ → ℕ → ℚ → List Char × List Char) (judge chk alw : Bool)
            (ans1 ans2 : Option (List Char)) (restarts iters : ℕ) (lam stop : ℚ),
            crackRun zipf ig oracle judge chk alw ans1 ans2 ct restarts iters lam
                useClean stop =
              some (CAESARW, decode ct (rotKey s), (caesarTry zipf ig ct useClean).2.2))) ∧
    ((caesarTry zipf ig ct useClean).2.2 < 9/10 →
      (caesarTry zipf ig ct useClean).1 = none ∧
      (caesarTry zipf ig ct useClean).2.1 = none) := by
  rcases caesarFold_inv zipf ig useClean ct (List.range 26) (0, none) with
    ⟨hnn, hmax, hcases⟩
  by_cases h : 9/10 ≤
      ((List.range 26).foldl (caesarStep zipf ig useClean ct)
        ((0 : ℚ), (none : Option (List Char)))).1
  · have hC : caesarTry zipf ig ct useClean =
        (((List.range 26).foldl (caesarStep zipf ig useClean ct) (0, none)).2,
          some CAESARW,
          ((List.range 26).foldl (caesarStep zipf ig useClean ct) (0, none)).1) := by
      simp only [caesarTry]
      rw [if_pos h]
    rcases hcases with heq | ⟨s, hs, heq⟩
    · rw [heq] at h
      norm_num at h
    · have hs26 : s < 26 := List.mem_range.mp hs
      constructor
      · intro _
        refine ⟨by rw [hC], s, hs26, ?_, ?_, ?_, ?_⟩
        · rw [hC, heq]
        · rw [hC, heq]
        · intro t ht
          rw [hC]
          exact hmax t (List.mem_range.mpr ht)
        · intro hct oracle judge chk alw ans1 ans2 restarts iters lam stop
          rcases List.exists_cons_of_ne_nil hct with ⟨c0, cr, rfl⟩
          have hplain : (caesarTry zipf ig (c0 :: cr) useClean).1 =
              some (subst (rotKey s) (pyUpper c0) :: decode cr (rotKey s)) := by
            rw [hC, heq]
            rfl
          have htruthy : pyTruthy (caesarTry zipf ig (c0 :: cr) useClean).1 = true := by
            rw [hplain]
            rfl
          simp only [crackRun]
          rw [htruthy]
          simp only [if_true]
          rw [hC, heq]
          rfl
      · intro hlt
        rw [hC] at hlt
        exact absurd h (not_le.mpr hlt)
  · have hC : caesarTry zipf ig ct useClean =
        (none, none,
          ((List.range 26).foldl (caesarStep zipf ig useClean ct) (0, none)).1) := by
      simp only [caesarTry]
      rw [if_neg h]
    constructor
    · intro h9
      rw [hC] at h9
      exact absurd h9 h
    · intro _
      rw [hC]
      exact ⟨rfl, rfl⟩

/-- C2 counterexample: on the empty ciphertext every rotation decodes to
the empty string, whose sense ratio is vacuously 1, so caesar_try
returns the sentinel "CAESAR" with ratio 1 ≥ 0.90 — but the returned
plaintext is the empty string, which is falsy in Python, so crack falls
through to the annealing search instead of returning immediately: its
answer carries the annealing oracle's key, not the Caesar sentinel. -/
theorem caesar_fastpath_cex :
    caesarTry (fun _ => 4) [] [] false = (some [], some CAESARW, 1) ∧
    crackRun (fun _ => 4) [] (fun _ _ _ => (['X'], [])) false false false
        none none [] 5 5 1 false (8/10) = some (['X'], [], 1) ∧
    ['X'] ≠ CAESARW := by
  refine ⟨?_, ?_, ?_⟩ <;> with_unfolding_all decide

theorem caesar_fastpath_witness :
    (caesarTry (fun _ => 4) [] ['A', 'B'] false).2.1 = some CAESARW :=
  ((caesar_fastpath (fun _ => 4) [] ['A', 'B'] false).1
    (by with_unfolding_all decide)).1

/-! The interactive checkpoints of crack. -/

/-- C8 (amended): when the Caesar fast path does not fire, crack reaches
one of two prompts.  At the accept/search/quit checkpoint (taken when
the coherence judge vouched for the text or the sense ratio reached the
stop threshold) end-of-input deterministically defaults to "a", i.e.
accept, and crack returns the current result.  But at the other
checkpoint — the confirmation question asked when the ratio is below the
threshold and no judge vouched — end-of-input defaults to "n", NOT to
accept, and crack proceeds into the escalation loop, returning its best
result instead of the current one. -/
theorem crack_eof_defaults (zipf : List Char → ℚ) (ig : List (List Char))
    (oracle : ℕ → ℕ → ℚ → List Char × List Char) (judge chk alw : Bool)
    (ans1 ans2 : Option (List Char)) (cipher : List Char) (restarts iters : ℕ)
    (lam : ℚ) (useClean : Bool) (stop : ℚ)
    (hc : pyTruthy (caesarTry zipf ig cipher useClean).1 = false) :
    ((chk && (alw || decide (stop * (3/4) ≤
          crackRatio zipf ig useClean (oracle restarts iters lam).2)) && judge ||
        decide (stop ≤ crackRatio zipf ig useClean (oracle restarts iters lam).2)) = true →
      crackRun zipf ig oracle judge chk alw none ans2 cipher restarts iters lam
          useClean stop =
        some ((oracle restarts iters lam).1, (oracle restarts iters lam).2,
          crackRatio zipf ig useClean (oracle restarts iters lam).2)) ∧
    ((chk && (alw || decide (stop * (3/4) ≤
          crackRatio zipf ig useClean (oracle restarts iters lam).2)) && judge ||
        decide (stop ≤ crackRatio zipf ig useClean (oracle restarts iters lam).2)) = false →
      crackRun zipf ig oracle judge chk alw ans1 none cipher restarts iters lam
          useClean stop =
        some ((escalateLoop oracle (fun p => crackRatio zipf ig useClean p.2) stop 3
            ⟨restarts, iters, lam,
              crackRatio zipf ig useClean (oracle restarts iters lam).2,
              oracle restarts iters lam,
              crackRatio zipf ig useClean (oracle restarts iters lam).2, 0⟩).best.1,
          (escalateLoop oracle (fun p => crackRatio zipf ig useClean p.2) stop 3
            ⟨restarts, iters, lam,
              crackRatio zipf ig useClean (oracle restarts iters lam).2,
              oracle restarts iters lam,
              crackRatio zipf ig useClean (oracle restarts iters lam).2, 0⟩).best.2,
          (escalateLoop oracle (fun p => crackRatio zipf ig useClean p.2) stop 3
            ⟨restarts, iters, lam,
              crackRatio zipf ig useClean (oracle restarts iters lam).2,
              oracle restarts iters lam,
              crackRatio zipf ig useClean (oracle restarts iters lam).2, 0⟩).bestRatio)) := by
  constructor
  · intro hcond
    simp only [crackRun]
    rw [hc]
    simp only [Bool.false_eq_true, if_false]
    rw [hcond]
    rfl
  · intro hcond
    simp only [crackRun]
    rw [hc]
    simp only [Bool.false_eq_true, if_false]
    rw [hcond]
    rfl

/-- C8 counterexample: with the confirmation checkpoint reached (sense
ratio 0 below the 0.8 threshold, no coherence judge) and the interactive
channel closed, crack does not default to accept: it escalates and
returns the escalated result (key L, plaintext OK, ratio 1), not the
then-current result (key K, plaintext XY, ratio 0) that a default of
"accept" would have returned. -/
theorem crack_eof_defaults_cex :
    crackRun (fun w => if w = ['o', 'k'] then 4 else 0) []
        (fun r _ _ => if r = 10 then (['K'], ['X', 'Y']) else (['L'], ['O', 'K']))
        false false false none none ['A', 'B'] 10 10 1 false (8/10) =
      some (['L'], ['O', 'K'], 1) ∧
    (['L'], ['O', 'K'], (1 : ℚ)) ≠ (['K'], ['X', 'Y'],
      crackRatio (fun w => if w = ['o', 'k'] then 4 else 0) [] false ['X', 'Y']) := by
  constructor <;> with_unfolding_all decide

theorem crack_eof_defaults_witness :
    crackRun (fun _ => (0 : ℚ)) [] (fun _ _ _ => (['K'], ['X', 'Y'])) true true true
        none (some ['x']) ['A', 'B'] 10 10 1 false (8/10) =
      some (['K'], ['X', 'Y'], crackRatio (fun _ => (0 : ℚ)) [] false ['X', 'Y']) :=
  (crack_eof_defaults (fun _ => (0 : ℚ)) [] (fun _ _ _ => (['K'], ['X', 'Y']))
    true true true none (some ['x']) ['A', 'B'] 10 10 1 false (8/10)
    (by with_unfolding_all decide)).1 (by with_unfolding_all decide)

end AutoSub
